import Mathlib

/-!
A verification development for the merchant_cleaner matching engine.

The definitions below are a shallow embedding of the inference path of the
repository: the tokenizer (processing/tokenizer.py, custom_tokenize), the
token normalizer (app/inference.py, clean_token), the stop-word set, and the
matching engine (app/inference.py, MerchantNameProcessor.predict).

Modelling conventions:
- Python strings are Lean String values; character classes follow the ASCII
  reading of the regular expressions in the source ([a-z], [A-Z], [A-Za-z],
  digits, word characters).
- Python dicts are association lists; dict.get(k, d) is a first-match lookup
  with default d.
- Python sets of tokens and candidate names are deduplicated Lean lists; set
  iteration order in the source is unspecified, here it is the list order.
- Floating point scores are modelled as exact rationals.  The IDF weight
  log(total/frequency) is irrational, so the engine is parametrised by the
  weight function w : String -> Rat that models self._get_token_weight; the
  weight computation itself is modelled separately (tokenWeightArg), with
  Option marking the division-by-zero failure path, and the logarithm taken
  at the level of real numbers in the theorems about it.
-/

/-- Character kind for the splitting regex of custom_tokenize:
whitespace, word-like (word character, apostrophe, or hyphen: the characters
the split pattern does not treat as a delimiter), or other (the delimiter
class of the first alternative of the split pattern). -/
inductive CKind : Type
  | ws : CKind
  | word : CKind
  | other : CKind
deriving DecidableEq

/-- Kind of a character under the split pattern of custom_tokenize.
Word characters are modelled as ASCII alphanumerics plus the underscore;
apostrophe (codepoint 39) and hyphen also do not split. -/
def ckind (c : Char) : CKind :=
  if c.isWhitespace then CKind.ws
  else if c.isAlphanum || c == Char.ofNat 95 || c == Char.ofNat 39 || c == Char.ofNat 45 then
    CKind.word
  else CKind.other

/-- Boundary insertion pass of custom_tokenize: models one re.sub of a
two-character-class pattern with replacement that keeps both characters and
puts a space between them.  The three patterns used in the source have
disjoint first and second classes, so the scan is equivalent to inserting a
space between every adjacent pair satisfying the predicate. -/
def insertBoundaries (p : Char → Char → Bool) : List Char → List Char
  | [] => []
  | [c] => [c]
  | a :: b :: rest =>
    if p a b then a :: ' ' :: insertBoundaries p (b :: rest)
    else a :: insertBoundaries p (b :: rest)

/-- Split a character list into maximal runs of characters of the same
CKind.  This models re.split with the delimiter-keeping pattern of
custom_tokenize: the whitespace runs and the other-class runs are the
delimiter matches, the word-like runs are the pieces in between; empty
in-between pieces are not produced (the source filters them out anyway). -/
def splitRuns : List Char → List (List Char)
  | [] => []
  | c :: cs =>
    match splitRuns cs with
    | (d :: g) :: gs =>
      if ckind c = ckind d then (c :: d :: g) :: gs else [c] :: (d :: g) :: gs
    | _ => [[c]]

/-- Python str.strip: drop leading and trailing whitespace. -/
def stripChars (l : List Char) : List Char :=
  (((l.dropWhile Char.isWhitespace).reverse).dropWhile Char.isWhitespace).reverse

/-- The tokenizer custom_tokenize of processing/tokenizer.py: camel-case
split, letter-digit split, digit-letter split, then a delimiter-keeping
split, then drop empty and whitespace-only pieces and strip the rest. -/
def custom_tokenize (s : String) : List String :=
  if s = "" then []
  else
    let t1 := insertBoundaries (fun a b => a.isLower && b.isUpper) s.toList
    let t2 := insertBoundaries (fun a b => a.isAlpha && b.isDigit) t1
    let t3 := insertBoundaries (fun a b => a.isDigit && b.isAlpha) t2
    ((splitRuns t3).filter
        (fun g => !g.isEmpty && !(g.all Char.isWhitespace))).map
      (fun g => String.mk (stripChars g))

/-- A character kept by clean_token: ASCII lowercase letter or digit,
the class [a-z0-9] of the removal regex. -/
def isCleanChar (c : Char) : Bool :=
  decide (97 ≤ c.toNat ∧ c.toNat ≤ 122) || decide (48 ≤ c.toNat ∧ c.toNat ≤ 57)

/-- ASCII lower-casing of one character, the effect of str.lower on the
character classes relevant to clean_token. -/
def lowerChar (c : Char) : Char :=
  if 65 ≤ c.toNat ∧ c.toNat ≤ 90 then Char.ofNat (c.toNat + 32) else c

/-- clean_token of app/inference.py: lower-case, then remove every
character outside [a-z0-9]. -/
def clean_token (s : String) : String :=
  String.mk ((s.toList.map lowerChar).filter isCleanChar)

/-- The STOP_WORDS set of app/inference.py, transcribed verbatim. -/
def STOP_WORDS : List String :=
  ["payment", "txn", "debit", "credit", "card", "purchase", "store", "shop",
   "online", "bill", "receipt", "charge", "fee", "transfer", "giro", "atm",
   "withdrawal", "singapore", "sg", "suntec", "marina", "tampines", "jurong",
   "paypal", "google", "apple", "amex", "dbs", "posb", "uob", "ocbc", "visa",
   "mastercard", "nets", "grab", "fave", "shopee", "lazada", "gpay",
   "paynow", "paywave", "contactless", "cl", "east", "west", "north",
   "south", "central", "rd", "road", "st", "street", "ave", "avenue",
   "blvd", "boulevard", "ctrl", "central", "cres", "crescent", "dr",
   "drive", "pl", "place", "link", "walk", "hwy", "highway", "bldg",
   "building", "ctr", "centre", "tower", "point", "plaza", "square", "mall",
   "junction", "complex", "city", "town", "view", "park", "hill", "hdb",
   "hub", "bedok", "changi", "pasir", "ris", "punggol", "sengkang",
   "hougang", "amk", "ang", "mo", "kio", "bishan", "toa", "payoh", "novena",
   "orchard", "newton", "bukit", "timah", "clementi", "boon", "lay",
   "yishun", "woodlands", "choa", "chu", "kang", "geylang", "kallang",
   "bedok mall", "century square", "changi city point", "downtown east",
   "eastpoint mall", "jewel", "katong", "i12", "parkway parade",
   "tampines 1", "tampines mall", "white sands", "amk hub", "canberra plaza",
   "causeway point", "northpoint city", "compass one", "heartland mall",
   "hougang mall", "nex", "junction 10", "west mall", "vivocity",
   "harbourfront centre", "alexandra retail centre", "the clementi mall",
   "gek poh", "imm", "jcube", "jem", "jurong point", "pioneer mall",
   "queensway", "the rail mall", "the star vista", "west coast plaza",
   "westgate", "bugis junction", "bugis+", "capitol", "cineleisure",
   "the centrepoint", "city square mall", "citylink mall", "funan",
   "great world city", "holland village", "ion orchard", "junction 8",
   "knightsbridge", "lucky plaza", "marina bay sands", "marina square",
   "millenia walk", "mustafa centre", "ngee ann city", "orchard central",
   "orchard gateway", "palais renaissance", "the paragon", "peoples park",
   "plaza singapura", "raffles city", "shaw house", "sim lim square",
   "suntec city", "tiong bahru plaza", "thomson plaza", "seletar mall",
   "waterway point", "sembawang", "hillion mall", "tanglin mall",
   "united square", "kallang wave mall", "888 plaza", "elias mall",
   "joo chiat complex", "loyang point", "rivervale plaza", "pte", "ltd",
   "llp", "lp", "inc", "llc", "corp", "bhd", "sbn", "the", "and", "of",
   "co", "au", "hk", "usa"]

/-- The set comprehension of predict building all_input_tokens: cleaned,
non-empty tokens of a string, with set semantics modelled by dedup. -/
def allInputTokens (s : String) : List String :=
  (((custom_tokenize s).map clean_token).filter (fun t => !(t == ""))).dedup

/-- Core token set of a string: normalized tokens minus stop words.
predict computes this both for the raw input (core_input_tokens) and for
each candidate name (core_candidate_tokens). -/
def coreTokens (s : String) : List String :=
  (allInputTokens s).filter (fun t => !(STOP_WORDS.contains t))

/-- The inverted index match_index: a mapping from normalized token to the
list of candidate canonical names, modelled as an association list. -/
abbrev MatchIndex : Type := List (String × List String)

/-- A token frequency table token_frequencies: a mapping from normalized
token to an occurrence count, modelled as an association list. -/
abbrev FreqTable : Type := List (String × Nat)

/-- dict.get(token, []) on the match index: the candidate-name list of the
first entry for the token, or the empty list. -/
def lookupIndex (idx : MatchIndex) (t : String) : List String :=
  match idx.find? (fun p => p.1 == t) with
  | some p => p.2
  | none => []

/-- The candidate pool of predict: union of the index lookups over the core
input tokens, with set semantics modelled by dedup. -/
def candidateNames (idx : MatchIndex) (raw : String) : List String :=
  ((coreTokens raw).flatMap (lookupIndex idx)).dedup

/-- dict.get(token, 1) on the frequency table: the count of the first entry
for the token, defaulting to 1 when absent.  A present entry with count 0 is
returned as 0: the default does not floor present entries. -/
def tokenFrequency (freqs : FreqTable) (t : String) : Nat :=
  match freqs.find? (fun p => p.1 == t) with
  | some p => p.2
  | none => 1

/-- self.total_token_count: the sum of all counts of the frequency table. -/
def totalTokenCount (freqs : FreqTable) : Nat :=
  (freqs.map (fun p => p.2)).sum

/-- The argument total_token_count / frequency of the logarithm in
_get_token_weight, as an exact rational; none models the ZeroDivisionError
raised when the looked-up frequency is 0.  The weight of the source is the
real logarithm of the returned rational. -/
def tokenWeightArg (freqs : FreqTable) (t : String) : Option ℚ :=
  if tokenFrequency freqs t = 0 then none
  else some ((totalTokenCount freqs : ℚ) / (tokenFrequency freqs t : ℚ))

/-- Sum of the weights of a list of tokens under a weight function,
modelling sum(self._get_token_weight(t) for t in ts) over a token set. -/
def sumW (w : String → ℚ) (ts : List String) : ℚ :=
  (ts.map w).sum

/-- One iteration body of the candidate loop of predict: the score
2 * Wi / (Win + Wc) of a candidate against the core input tokens, where
none models the two continue branches (candidate with empty core token set;
zero denominator). -/
def scoreCandidate (w : String → ℚ) (coreIn : List String) (cand : String) : Option ℚ :=
  if coreTokens cand = [] then none
  else if sumW w coreIn + sumW w (coreTokens cand) = 0 then none
  else
    some (2 * sumW w (coreIn.filter (fun t => decide (t ∈ coreTokens cand)))
            / (sumW w coreIn + sumW w (coreTokens cand)))

/-- The running-maximum update of the candidate loop of predict: replace the
tracked (best_match, highest_score) pair exactly when the new score is
strictly greater. -/
def scanStep (w : String → ℚ) (coreIn : List String) (acc : String × ℚ) (cand : String) :
    String × ℚ :=
  match scoreCandidate w coreIn cand with
  | none => acc
  | some sc => if sc > acc.2 then (cand, sc) else acc

/-- The candidate loop of predict, starting from best_match = "" and
highest_score = 0.0. -/
def scanCandidates (w : String → ℚ) (coreIn : List String) (cands : List String) :
    String × ℚ :=
  cands.foldl (scanStep w coreIn) ("", 0)

/-- The maximum candidate score of a query, written the way the spec
describes it: the maximum (with floor 0, the initial highest_score) of the
scores of the candidates that are not skipped. -/
def bestScore (w : String → ℚ) (coreIn : List String) (cands : List String) : ℚ :=
  (cands.filterMap (scoreCandidate w coreIn)).foldl max 0

/-- MerchantNameProcessor.predict, parametrised by the weight function w
modelling self._get_token_weight: the early returns (raw, 0.0) on empty
core token set and (raw, 0.1) on empty candidate pool, then the candidate
loop and the 0.33-threshold decision. -/
def predict (idx : MatchIndex) (w : String → ℚ) (raw : String) : String × ℚ :=
  if coreTokens raw = [] then (raw, 0)
  else if candidateNames idx raw = [] then (raw, 1/10)
  else if (scanCandidates w (coreTokens raw) (candidateNames idx raw)).2 > 33/100 then
    scanCandidates w (coreTokens raw) (candidateNames idx raw)
  else (raw, (scanCandidates w (coreTokens raw) (candidateNames idx raw)).2)

/-- The constant weight function used by concrete instances below. -/
def unitW : String → ℚ := fun _ => 1

/-- A one-entry index sending the token of the input "acme" to the
canonical name "Acme", used by concrete instances below. -/
def idxAcme : MatchIndex := [("acme", ["Acme"])]

/-- A one-entry index sending the token "a" to a two-token candidate name,
used by the threshold-boundary instances below. -/
def idxAB : MatchIndex := [("a", ["a b"])]

/-- An index whose only candidate name "pte" consists entirely of a stop
word, so the scoring loop skips it. -/
def idxPte : MatchIndex := [("acme", ["pte"])]

/-- Weights putting the score of the candidate "a b" against the input "a"
at exactly 33/100: 2*33 / (33 + (33 + 134)) = 66/200. -/
def wBoundary : String → ℚ := fun t => if t = "a" then 33 else if t = "b" then 134 else 0

/-- Weights putting the score of the candidate "a b" against the input "a"
at exactly 34/100: 2*17 / (17 + (17 + 66)) = 34/100. -/
def wAbove : String → ℚ := fun t => if t = "a" then 17 else if t = "b" then 66 else 0

/-! Helper lemmas about the embedded definitions. -/

lemma coreTokens_nodup (s : String) : (coreTokens s).Nodup :=
  (List.nodup_dedup _).filter _

lemma sumW_nonneg (w : String → ℚ) (hw : ∀ t, 0 ≤ w t) (l : List String) :
    0 ≤ sumW w l := by
  refine List.sum_nonneg ?_
  intro x hx
  rcases List.mem_map.1 hx with ⟨t, _, rfl⟩
  exact hw t

lemma sumW_filter_le (w : String → ℚ) (hw : ∀ t, 0 ≤ w t) (l : List String)
    (p : String → Bool) : sumW w (l.filter p) ≤ sumW w l := by
  refine List.Sublist.sum_le_sum ((List.filter_sublist l).map w) ?_
  intro x hx
  rcases List.mem_map.1 hx with ⟨t, _, rfl⟩
  exact hw t

lemma sumW_le_of_subset (w : String → ℚ) (hw : ∀ t, 0 ≤ w t) (l1 l2 : List String)
    (h1 : l1.Nodup) (h2 : l2.Nodup) (hsub : ∀ t ∈ l1, t ∈ l2) :
    sumW w l1 ≤ sumW w l2 := by
  have e1 : l1.toFinset.sum w = sumW w l1 := List.sum_toFinset w h1
  have e2 : l2.toFinset.sum w = sumW w l2 := List.sum_toFinset w h2
  rw [← e1, ← e2]
  refine Finset.sum_le_sum_of_subset_of_nonneg ?_ ?_
  · intro x hx
    exact List.mem_toFinset.2 (hsub x (List.mem_toFinset.1 hx))
  · intro i _ _
    exact hw i

lemma scoreCandidate_bounds (w : String → ℚ) (coreIn : List String) (cand : String)
    (sc : ℚ) (hw : ∀ t, 0 ≤ w t) (hnd : coreIn.Nodup)
    (h : scoreCandidate w coreIn cand = some sc) : 0 ≤ sc ∧ sc ≤ 1 := by
  rw [scoreCandidate] at h
  split_ifs at h with hc hd
  rcases Option.some.inj h with rfl
  have hI0 : 0 ≤ sumW w (coreIn.filter (fun t => decide (t ∈ coreTokens cand))) :=
    sumW_nonneg w hw _
  have hIA : sumW w (coreIn.filter (fun t => decide (t ∈ coreTokens cand))) ≤ sumW w coreIn :=
    sumW_filter_le w hw _ _
  have hIB : sumW w (coreIn.filter (fun t => decide (t ∈ coreTokens cand)))
      ≤ sumW w (coreTokens cand) := by
    refine sumW_le_of_subset w hw _ _ (hnd.filter _) (coreTokens_nodup cand) ?_
    intro t ht
    exact of_decide_eq_true (List.mem_filter.1 ht).2
  have hA0 : 0 ≤ sumW w coreIn := sumW_nonneg w hw _
  have hB0 : 0 ≤ sumW w (coreTokens cand) := sumW_nonneg w hw _
  have hden : 0 < sumW w coreIn + sumW w (coreTokens cand) :=
    lt_of_le_of_ne (add_nonneg hA0 hB0) (Ne.symm hd)
  constructor
  · exact div_nonneg (by linarith) hden.le
  · rw [div_le_one hden]
    linarith

lemma scan_snd_eq (w : String → ℚ) (coreIn : List String) :
    ∀ (cands : List String) (acc : String × ℚ),
      (List.foldl (scanStep w coreIn) acc cands).2
        = (cands.filterMap (scoreCandidate w coreIn)).foldl max acc.2 := by
  intro cands
  induction cands with
  | nil => intro acc; rfl
  | cons c rest IH =>
    intro acc
    rcases e : scoreCandidate w coreIn c with _ | sc
    · simp only [List.foldl_cons, List.filterMap_cons, e, scanStep]
      exact IH acc
    · simp only [List.foldl_cons, List.filterMap_cons, e, scanStep]
      rw [IH]
      congr 1
      rcases le_or_lt sc acc.2 with h | h
      · rw [if_neg (not_lt.2 h)]
        exact (max_eq_left h).symm
      · rw [if_pos h]
        exact (max_eq_right h.le).symm

lemma scan_fst_mem (w : String → ℚ) (coreIn : List String) :
    ∀ (cands : List String) (acc : String × ℚ),
      List.foldl (scanStep w coreIn) acc cands = acc
        ∨ (List.foldl (scanStep w coreIn) acc cands).1 ∈ cands := by
  intro cands
  induction cands with
  | nil => intro acc; exact Or.inl rfl
  | cons c rest IH =>
    intro acc
    rcases e : scoreCandidate w coreIn c with _ | sc
    · simp only [List.foldl_cons, scanStep, e]
      rcases IH acc with h | h
      · exact Or.inl h
      · exact Or.inr (List.mem_cons_of_mem c h)
    · simp only [List.foldl_cons, scanStep, e]
      split_ifs with hgt
      · rcases IH (c, sc) with h | h
        · exact Or.inr (by rw [h]; exact List.mem_cons_self c rest)
        · exact Or.inr (List.mem_cons_of_mem c h)
      · rcases IH acc with h | h
        · exact Or.inl h
        · exact Or.inr (List.mem_cons_of_mem c h)

lemma scan_bounds (w : String → ℚ) (coreIn : List String) (hw : ∀ t, 0 ≤ w t)
    (hnd : coreIn.Nodup) :
    ∀ (cands : List String) (acc : String × ℚ), 0 ≤ acc.2 → acc.2 ≤ 1 →
      0 ≤ (List.foldl (scanStep w coreIn) acc cands).2
        ∧ (List.foldl (scanStep w coreIn) acc cands).2 ≤ 1 := by
  intro cands
  induction cands with
  | nil => intro acc h0 h1; exact ⟨h0, h1⟩
  | cons c rest IH =>
    intro acc h0 h1
    rcases e : scoreCandidate w coreIn c with _ | sc
    · simp only [List.foldl_cons, scanStep, e]
      exact IH acc h0 h1
    · have hb := scoreCandidate_bounds w coreIn c sc hw hnd e
      simp only [List.foldl_cons, scanStep, e]
      split_ifs with hgt
      · exact IH (c, sc) hb.1 hb.2
      · exact IH acc h0 h1

lemma ckind_ws_iff (c : Char) : ckind c = CKind.ws ↔ c.isWhitespace = true := by
  rw [ckind]
  split_ifs with h1 h2 <;> simp_all

lemma splitRuns_uniform : ∀ (l : List Char), ∀ g ∈ splitRuns l, ∃ k, ∀ c ∈ g, ckind c = k := by
  intro l
  induction l with
  | nil => intro g hg; simp [splitRuns] at hg
  | cons c cs IH =>
    intro g hg
    rw [splitRuns] at hg
    rcases e : splitRuns cs with _ | ⟨g0, gs⟩
    · rw [e] at hg
      simp at hg
      subst hg
      exact ⟨ckind c, by simp⟩
    · rcases g0 with _ | ⟨d, g1⟩
      · rw [e] at hg
        simp at hg
        subst hg
        exact ⟨ckind c, by simp⟩
      · rw [e] at hg
        simp only at hg
        split_ifs at hg with hk
        · rcases List.mem_cons.1 hg with rfl | hmem
          · rcases IH (d :: g1) (by rw [e]; exact List.mem_cons_self _ _) with ⟨k, hk2⟩
            refine ⟨k, ?_⟩
            intro x hx
            rcases List.mem_cons.1 hx with rfl | hx2
            · rw [hk]
              exact hk2 d (List.mem_cons_self d g1)
            · exact hk2 x hx2
          · exact IH g (by rw [e]; exact List.mem_cons_of_mem _ hmem)
        · rcases List.mem_cons.1 hg with rfl | hmem
          · exact ⟨ckind c, by simp⟩
          · exact IH g (by rw [e]; exact hmem)

lemma dropWhile_ws_eq_self (l : List Char) (h : ∀ c ∈ l, c.isWhitespace = false) :
    l.dropWhile Char.isWhitespace = l := by
  cases l with
  | nil => rfl
  | cons c cs =>
    rw [List.dropWhile_cons, if_neg]
    rw [h c (List.mem_cons_self c cs)]
    simp

lemma stripChars_eq_self (l : List Char) (h : ∀ c ∈ l, c.isWhitespace = false) :
    stripChars l = l := by
  rw [stripChars, dropWhile_ws_eq_self l h, dropWhile_ws_eq_self, List.reverse_reverse]
  intro c hc
  exact h c (List.mem_reverse.1 hc)

lemma lowerChar_fixed (c : Char) (h : isCleanChar c = true) : lowerChar c = c := by
  simp only [isCleanChar, Bool.or_eq_true, decide_eq_true_eq] at h
  rw [lowerChar, if_neg (by omega)]

lemma map_id_of_mem {α : Type} (f : α → α) :
    ∀ (l : List α), (∀ c ∈ l, f c = c) → l.map f = l := by
  intro l
  induction l with
  | nil => intro _; rfl
  | cons c cs IH =>
    intro h
    rw [List.map_cons, h c (List.mem_cons_self c cs),
      IH (fun x hx => h x (List.mem_cons_of_mem c hx))]

lemma scanCandidates_eq_foldl (w : String → ℚ) (coreIn : List String) (cands : List String) :
    scanCandidates w coreIn cands = List.foldl (scanStep w coreIn) ("", 0) cands := rfl

/-! Theorems settling the claims. -/

/-- C7: the tokenizer splits at lowercase-to-uppercase and letter-digit
transitions: custom_tokenize on "GopayGojek", "MERCARI456" and "456MERCARI"
returns exactly the claimed token lists. -/
theorem c7_transition_splits :
    custom_tokenize ("GopayGojek") = ["Gopay", "Gojek"]
      ∧ custom_tokenize ("MERCARI456") = ["MERCARI", "456"]
      ∧ custom_tokenize ("456MERCARI") = ["456", "MERCARI"] := by
  refine ⟨by decide, by decide, by decide⟩

/-- C8: token normalization is idempotent: clean_token (clean_token x) =
clean_token x for every string x, because the output of clean_token contains
only characters in [a-z0-9], which lower-casing and the removal filter leave
unchanged. -/
theorem c8_clean_token_idempotent (s : String) :
    clean_token (clean_token s) = clean_token s := by
  rw [clean_token, clean_token]
  have he : (String.mk ((s.toList.map lowerChar).filter isCleanChar)).toList
      = (s.toList.map lowerChar).filter isCleanChar := rfl
  rw [he]
  congr 1
  have hmem : ∀ c ∈ (s.toList.map lowerChar).filter isCleanChar, isCleanChar c = true :=
    fun c hc => List.of_mem_filter hc
  rw [map_id_of_mem lowerChar _ (fun c hc => lowerChar_fixed c (hmem c hc))]
  exact List.filter_eq_self.2 hmem

/-- C10: every token returned by custom_tokenize is a non-empty string
containing no whitespace characters (hence in particular no leading or
trailing whitespace), for every input string. -/
theorem c10_tokens_wellformed (s : String) (t : String) (ht : t ∈ custom_tokenize s) :
    t ≠ "" ∧ ∀ c ∈ t.toList, c.isWhitespace = false := by
  rw [custom_tokenize] at ht
  split_ifs at ht with hs
  · simp at ht
  · simp only [List.mem_map, List.mem_filter, Bool.and_eq_true, Bool.not_eq_true'] at ht
    rcases ht with ⟨g, ⟨hgmem, hgempty, hgall⟩, rfl⟩
    have hne : g ≠ [] := by
      intro h
      rw [h] at hgempty
      simp at hgempty
    rcases splitRuns_uniform _ g hgmem with ⟨k, hk⟩
    rcases List.all_eq_false.1 hgall with ⟨c0, hc0mem, hc0⟩
    have hc0ws : c0.isWhitespace = false := by
      rcases Bool.eq_false_or_eq_true c0.isWhitespace with h | h
      · exact absurd h hc0
      · exact h
    have hwsfree : ∀ c ∈ g, c.isWhitespace = false := by
      intro c hc
      rcases Bool.eq_false_or_eq_true c.isWhitespace with h | h
      · have hkc : ckind c = CKind.ws := (ckind_ws_iff c).2 h
        have hk0 : ckind c0 = CKind.ws := by
          rw [hk c0 hc0mem, ← hk c hc]
          exact hkc
        rw [(ckind_ws_iff c0).1 hk0] at hc0ws
        exact absurd hc0ws (by simp)
      · exact h
    rw [stripChars_eq_self g hwsfree]
    constructor
    · intro h
      exact hne (congrArg String.data h)
    · intro c hc
      exact hwsfree c hc

/-- Witness for c10_tokens_wellformed at the concrete input "a b" and its
first token "a". -/
theorem c10_tokens_wellformed_witness :
    (("a" : String) ∈ custom_tokenize ("a b"))
      ∧ (("a" : String) ≠ ""
          ∧ ∀ c ∈ ("a" : String).toList, c.isWhitespace = false) :=
  ⟨by decide, c10_tokens_wellformed ("a b") ("a") (by decide)⟩

/-- C5: whenever the core token set of the input is empty (for example for
the empty string, whitespace-only strings, or pure stop-word strings),
predict returns the raw input verbatim with confidence 0.0. -/
theorem c5_empty_core (idx : MatchIndex) (w : String → ℚ) (raw : String)
    (h : coreTokens raw = []) : predict idx w raw = (raw, 0) := by
  rw [predict, if_pos h]

/-- Witness for c5_empty_core at the concrete inputs "", "   " and
"PAYMENT SG". -/
theorem c5_empty_core_witness :
    (coreTokens ("") = [] ∧ predict [] unitW ("") = (("" : String), 0))
      ∧ (coreTokens ("   ") = [] ∧ predict [] unitW ("   ") = (("   " : String), 0))
      ∧ (coreTokens ("PAYMENT SG") = []
          ∧ predict [] unitW ("PAYMENT SG") = (("PAYMENT SG" : String), 0)) :=
  ⟨⟨by decide, c5_empty_core [] unitW ("") (by decide)⟩,
   ⟨by decide, c5_empty_core [] unitW ("   ") (by decide)⟩,
   ⟨by decide, c5_empty_core [] unitW ("PAYMENT SG") (by decide)⟩⟩

/-- C6: whenever the core token set of the input is non-empty but the
inverted-index union over it is empty, predict returns the raw input
verbatim with confidence exactly 0.1. -/
theorem c6_empty_pool (idx : MatchIndex) (w : String → ℚ) (raw : String)
    (h1 : coreTokens raw ≠ []) (h2 : candidateNames idx raw = []) :
    predict idx w raw = (raw, 1/10) := by
  rw [predict, if_neg h1, if_pos h2]

/-- Witness for c6_empty_pool: the input "acme" against an empty index. -/
theorem c6_empty_pool_witness :
    coreTokens ("acme") ≠ [] ∧ candidateNames [] ("acme") = []
      ∧ predict [] unitW ("acme") = (("acme" : String), 1/10) :=
  ⟨by decide, by decide, c6_empty_pool [] unitW ("acme") (by decide) (by decide)⟩

/-- C9: the engine never invents a name: if predict returns a name different
from the raw input text, that name is a member of the candidate pool built
from the inverted index over the core input tokens. -/
theorem c9_no_invented_name (idx : MatchIndex) (w : String → ℚ) (raw name : String)
    (s : ℚ) (hp : predict idx w raw = (name, s)) (hne : name ≠ raw) :
    name ∈ candidateNames idx raw := by
  rw [predict] at hp
  split_ifs at hp with h1 h2 h3
  · exact absurd (congrArg Prod.fst hp).symm hne
  · exact absurd (congrArg Prod.fst hp).symm hne
  · rcases scan_fst_mem w (coreTokens raw) (candidateNames idx raw) (("", 0)) with h | h
    · rw [scanCandidates_eq_foldl, h] at h3
      norm_num at h3
    · rw [scanCandidates_eq_foldl] at hp
      rw [hp] at h
      exact h
  · exact absurd (congrArg Prod.fst hp).symm hne

/-- Witness for c9_no_invented_name: a query where predict substitutes the
candidate "Acme" for the input "acme", and "Acme" is in the pool. -/
theorem c9_no_invented_name_witness :
    predict idxAcme unitW ("acme") = (("Acme" : String), 1)
      ∧ ("Acme" : String) ≠ ("acme")
      ∧ ("Acme" : String) ∈ candidateNames idxAcme ("acme") := by
  have h1 : coreTokens ("acme") = ["acme"] := by decide
  have h2 : candidateNames idxAcme ("acme") = ["Acme"] := by decide
  have h3 : coreTokens ("Acme") = ["acme"] := by decide
  have hwin : sumW unitW ["acme"] = 1 := by simp [sumW, unitW]
  have hinter : List.filter (fun t => decide (t ∈ (["acme"] : List String))) ["acme"]
      = ["acme"] := by decide
  have hsc : scoreCandidate unitW ["acme"] ("Acme") = some 1 := by
    rw [scoreCandidate, h3, hinter, hwin]
    rw [if_neg (by decide : ¬(["acme"] : List String) = [])]
    rw [if_neg (by norm_num : ¬(1 : ℚ) + 1 = 0)]
    norm_num
  have hscan : scanCandidates unitW ["acme"] ["Acme"] = (("Acme" : String), 1) := by
    rw [scanCandidates_eq_foldl]
    simp only [List.foldl_cons, List.foldl_nil, scanStep, hsc]
    norm_num
  have hpred : predict idxAcme unitW ("acme") = (("Acme" : String), 1) := by
    rw [predict, h1, h2, hscan]
    norm_num
  exact ⟨hpred, by decide,
    c9_no_invented_name idxAcme unitW ("acme") ("Acme") 1 hpred (by decide)⟩

/-- C3: with non-negative token weights every candidate score, and hence the
confidence returned by predict, lies in the interval [0, 1]. -/
theorem c3_confidence_bounds (idx : MatchIndex) (w : String → ℚ) (raw : String)
    (hw : ∀ t, 0 ≤ w t) :
    0 ≤ (predict idx w raw).2 ∧ (predict idx w raw).2 ≤ 1 := by
  rw [predict]
  split_ifs with h1 h2 h3
  · norm_num
  · norm_num
  · exact scan_bounds w (coreTokens raw) hw (coreTokens_nodup raw) _ ("", 0)
      (le_refl 0) (by norm_num)
  · exact scan_bounds w (coreTokens raw) hw (coreTokens_nodup raw) _ ("", 0)
      (le_refl 0) (by norm_num)

/-- Witness for c3_confidence_bounds at the constant weight 1 and a query
that reaches the scoring loop. -/
theorem c3_confidence_bounds_witness :
    (∀ t, 0 ≤ unitW t)
      ∧ 0 ≤ (predict idxAcme unitW ("acme")).2
      ∧ (predict idxAcme unitW ("acme")).2 ≤ 1 :=
  ⟨fun _ => zero_le_one,
   (c3_confidence_bounds idxAcme unitW ("acme") (fun _ => zero_le_one)).1,
   (c3_confidence_bounds idxAcme unitW ("acme") (fun _ => zero_le_one)).2⟩

/-- C1: the loop result equals the maximum candidate score, and predict
substitutes the best candidate exactly when that maximum strictly exceeds
0.33: at a maximum of 0.33 or lower the raw input is returned with the
maximum score, above 0.33 the tracked best candidate is returned with it. -/
theorem c1_threshold_decision (idx : MatchIndex) (w : String → ℚ) (raw : String)
    (h1 : coreTokens raw ≠ []) (h2 : candidateNames idx raw ≠ []) :
    (scanCandidates w (coreTokens raw) (candidateNames idx raw)).2
        = bestScore w (coreTokens raw) (candidateNames idx raw)
      ∧ (bestScore w (coreTokens raw) (candidateNames idx raw) ≤ 33/100 →
          predict idx w raw
            = (raw, bestScore w (coreTokens raw) (candidateNames idx raw)))
      ∧ (33/100 < bestScore w (coreTokens raw) (candidateNames idx raw) →
          predict idx w raw
            = ((scanCandidates w (coreTokens raw) (candidateNames idx raw)).1,
               bestScore w (coreTokens raw) (candidateNames idx raw))) := by
  have hbs : (scanCandidates w (coreTokens raw) (candidateNames idx raw)).2
      = bestScore w (coreTokens raw) (candidateNames idx raw) := by
    rw [scanCandidates_eq_foldl, bestScore, scan_snd_eq]
  refine ⟨hbs, ?_, ?_⟩
  · intro hle
    rw [predict, if_neg h1, if_neg h2, if_neg]
    · rw [hbs]
    · rw [hbs]
      exact not_lt.2 hle
  · intro hgt
    rw [predict, if_neg h1, if_neg h2, if_pos]
    · exact Prod.ext rfl hbs
    · rw [hbs]
      exact hgt

/-- Witness for c1_threshold_decision: against the index idxAB, weights
putting the maximum score at exactly 33/100 make predict echo the raw input
with that score, and weights putting it at 34/100 make predict return the
candidate with that score. -/
theorem c1_threshold_decision_witness :
    (coreTokens ("a") ≠ [] ∧ candidateNames idxAB ("a") ≠ [])
      ∧ (bestScore wBoundary (coreTokens ("a")) (candidateNames idxAB ("a")) = 33/100
          ∧ predict idxAB wBoundary ("a") = (("a" : String), 33/100))
      ∧ (bestScore wAbove (coreTokens ("a")) (candidateNames idxAB ("a")) = 17/50
          ∧ predict idxAB wAbove ("a") = (("a b" : String), 17/50)) := by
  have h1 : coreTokens ("a") = ["a"] := by decide
  have h2 : candidateNames idxAB ("a") = ["a b"] := by decide
  have h3 : coreTokens ("a b") = ["a", "b"] := by decide
  have hinter : List.filter (fun t => decide (t ∈ (["a", "b"] : List String))) ["a"]
      = ["a"] := by decide
  have hwin1 : sumW wBoundary ["a"] = 33 := by simp [sumW, wBoundary]
  have hwc1 : sumW wBoundary ["a", "b"] = 167 := by
    simp [sumW, wBoundary]
    norm_num
  have hsc1 : scoreCandidate wBoundary ["a"] ("a b") = some (33/100) := by
    rw [scoreCandidate, h3, hinter, hwin1, hwc1]
    rw [if_neg (by decide : ¬(["a", "b"] : List String) = [])]
    rw [if_neg (by norm_num : ¬(33 : ℚ) + 167 = 0)]
    norm_num
  have hbest1 : bestScore wBoundary (coreTokens ("a")) (candidateNames idxAB ("a"))
      = 33/100 := by
    rw [h1, h2, bestScore]
    simp only [List.filterMap_cons, List.filterMap_nil, hsc1]
    rw [List.foldl_cons, List.foldl_nil, max_eq_right (by norm_num : (0 : ℚ) ≤ 33/100)]
  have hwin2 : sumW wAbove ["a"] = 17 := by simp [sumW, wAbove]
  have hwc2 : sumW wAbove ["a", "b"] = 83 := by
    simp [sumW, wAbove]
    norm_num
  have hsc2 : scoreCandidate wAbove ["a"] ("a b") = some (17/50) := by
    rw [scoreCandidate, h3, hinter, hwin2, hwc2]
    rw [if_neg (by decide : ¬(["a", "b"] : List String) = [])]
    rw [if_neg (by norm_num : ¬(17 : ℚ) + 83 = 0)]
    norm_num
  have hbest2 : bestScore wAbove (coreTokens ("a")) (candidateNames idxAB ("a"))
      = 17/50 := by
    rw [h1, h2, bestScore]
    simp only [List.filterMap_cons, List.filterMap_nil, hsc2]
    rw [List.foldl_cons, List.foldl_nil, max_eq_right (by norm_num : (0 : ℚ) ≤ 17/50)]
  have hscan2 : scanCandidates wAbove (coreTokens ("a")) (candidateNames idxAB ("a"))
      = (("a b" : String), 17/50) := by
    rw [h1, h2, scanCandidates_eq_foldl]
    simp only [List.foldl_cons, List.foldl_nil, scanStep, hsc2]
    norm_num
  have hp1 := (c1_threshold_decision idxAB wBoundary ("a") (by decide) (by decide)).2.1
    (le_of_eq hbest1)
  rw [hbest1] at hp1
  have hp2 := (c1_threshold_decision idxAB wAbove ("a") (by decide) (by decide)).2.2
    (by rw [hbest2]; norm_num)
  rw [hbest2, hscan2] at hp2
  exact ⟨⟨by decide, by decide⟩, ⟨hbest1, hp1⟩, ⟨hbest2, hp2⟩⟩

/-- Counterexample to C2 as stated: a frequency table with the non-negative
count 0 on the entry for "a".  The lookup of "a" returns the stored 0 (the
default-to-1 floor applies only to absent tokens), so the weight computation
divides by zero (tokenWeightArg is none, the modelled ZeroDivisionError). -/
theorem c2_weight_counterexample :
    (∀ p ∈ ([("a", 0)] : FreqTable), 0 ≤ p.2)
      ∧ tokenFrequency [("a", 0)] ("a") = 0
      ∧ tokenWeightArg [("a", 0)] ("a") = none :=
  ⟨by decide, by decide, by decide⟩

/-- C2 amended: over frequency tables whose entries all have count at least
1 and that have at least one entry, the weight computation never divides by
zero and the logarithm argument total/frequency is at least 1, so the weight
log(total/frequency) is defined, finite and non-negative, for every token
including absent ones. -/
theorem c2_weight_wellformed (freqs : FreqTable) (t : String)
    (hpos : ∀ p ∈ freqs, 1 ≤ p.2) (hne : freqs ≠ []) :
    ∃ q : ℚ, tokenWeightArg freqs t = some q ∧ 1 ≤ q ∧ 0 ≤ Real.log (q : ℝ) := by
  have hf1 : 1 ≤ tokenFrequency freqs t := by
    rw [tokenFrequency]
    rcases e : freqs.find? (fun p => p.1 == t) with _ | p
    · rw [e]
    · rw [e]
      exact hpos p (List.mem_of_find?_eq_some e)
  have hft : tokenFrequency freqs t ≤ totalTokenCount freqs := by
    rw [tokenFrequency, totalTokenCount]
    rcases e : freqs.find? (fun p => p.1 == t) with _ | p
    · rw [e]
      rcases freqs with _ | ⟨q0, rest⟩
      · exact absurd rfl hne
      · calc (1 : ℕ) ≤ q0.2 := hpos q0 (List.mem_cons_self q0 rest)
          _ ≤ (((q0 :: rest).map (fun p => p.2)).sum : ℕ) :=
            List.le_sum_of_mem (List.mem_map_of_mem _ (List.mem_cons_self q0 rest))
    · rw [e]
      exact List.le_sum_of_mem (List.mem_map_of_mem _ (List.mem_of_find?_eq_some e))
  have hfz : tokenFrequency freqs t ≠ 0 := by omega
  have hq1 : (1 : ℚ) ≤ (totalTokenCount freqs : ℚ) / (tokenFrequency freqs t : ℚ) := by
    rw [one_le_div (by exact_mod_cast Nat.pos_of_ne_zero hfz)]
    exact_mod_cast hft
  refine ⟨(totalTokenCount freqs : ℚ) / (tokenFrequency freqs t : ℚ), ?_, hq1, ?_⟩
  · rw [tokenWeightArg, if_neg hfz]
  · exact Real.log_nonneg (by exact_mod_cast hq1)

/-- Witness for c2_weight_wellformed: the table with the single entry
("a", 2) and the absent token "b". -/
theorem c2_weight_wellformed_witness :
    (∀ p ∈ ([("a", 2)] : FreqTable), 1 ≤ p.2)
      ∧ ([("a", 2)] : FreqTable) ≠ []
      ∧ ∃ q : ℚ, tokenWeightArg [("a", 2)] ("b") = some q ∧ 1 ≤ q
          ∧ 0 ≤ Real.log (q : ℝ) :=
  ⟨by decide, by decide, c2_weight_wellformed [("a", 2)] ("b") (by decide) (by decide)⟩

/-- Counterexample to C4 as stated: against idxPte the input "acme" has a
non-empty core token set and a non-empty candidate pool, yet predict
returns confidence 0.0, because the only candidate is skipped (its core
token set is empty) and the initial highest_score 0.0 is below the
threshold.  So confidence 0.0 does not uniquely encode an empty core token
set. -/
theorem c4_unique_encoding_counterexample :
    coreTokens ("acme") ≠ []
      ∧ candidateNames idxPte ("acme") ≠ []
      ∧ predict idxPte unitW ("acme") = (("acme" : String), 0) := by
  have h1 : coreTokens ("acme") = ["acme"] := by decide
  have h2 : candidateNames idxPte ("acme") = ["pte"] := by decide
  have hsc : scoreCandidate unitW ["acme"] ("pte") = none := by
    rw [scoreCandidate, if_pos (by decide : coreTokens ("pte") = [])]
  have hscan : scanCandidates unitW ["acme"] ["pte"] = (("" : String), 0) := by
    rw [scanCandidates_eq_foldl]
    simp only [List.foldl_cons, List.foldl_nil, scanStep, hsc]
  refine ⟨by decide, by decide, ?_⟩
  rw [predict, h1, h2, hscan]
  norm_num

/-- C4 amended: the forward directions hold: an empty core token set yields
confidence 0.0 and a non-empty core token set with an empty candidate pool
yields confidence 0.1; but these confidences are not unique encodings of
the two failure modes (see the counterexample). -/
theorem c4_failure_codes (idx : MatchIndex) (w : String → ℚ) (raw : String) :
    (coreTokens raw = [] → predict idx w raw = (raw, 0))
      ∧ (coreTokens raw ≠ [] → candidateNames idx raw = [] →
          predict idx w raw = (raw, 1/10)) := by
  constructor
  · intro h
    rw [predict, if_pos h]
  · intro h1 h2
    rw [predict, if_neg h1, if_pos h2]

/-- Witness for c4_failure_codes at the empty string and at the unindexed
token "zzz". -/
theorem c4_failure_codes_witness :
    (coreTokens ("") = [] ∧ predict [] unitW ("") = (("" : String), 0))
      ∧ (coreTokens ("zzz") ≠ [] ∧ candidateNames [] ("zzz") = []
          ∧ predict [] unitW ("zzz") = (("zzz" : String), 1/10)) :=
  ⟨⟨by decide, (c4_failure_codes [] unitW ("")).1 (by decide)⟩,
   ⟨by decide, by decide, (c4_failure_codes [] unitW ("zzz")).2 (by decide) (by decide)⟩⟩
